import Mathlib

/-!
Verification of the DocAi repository's specified core: the sliding-window
longest-unique-substring scanner (UniqueWindowScanner), together with the
small utility functions of `src/sth.py` and
`src/tests/fixtures/sample_functions.py`.

Sequences are embedded as `List α` over an arbitrary type with decidable
equality; Python strings become their lists of characters.  The mutable
loop state of the scanner becomes an explicit `ScanState` record threaded
through a structural recursion, and the Python `dict` used as the
last-seen index becomes an association list where insertion prepends
(a later binding shadows an earlier one, exactly as a `dict` overwrite).
Fallible Python operations (raising `TypeError` / `ValueError`) are
embedded as a `PyResult` sum type, and the unbounded recursion of
`calculate_factorial` over Python ints is embedded with explicit fuel.
-/

namespace DocAi

/-- Loop state of the sliding-window scan: left edge of the current
window, best length seen so far, its start, and the last-seen index. -/
structure ScanState (α : Type) where
  start : Nat
  bestLen : Nat
  bestStart : Nat
  lastSeen : List (α × Nat)
deriving Repr

variable {α : Type} [DecidableEq α]

/-- Lookup in the last-seen association list; the first binding wins,
so prepending a pair behaves as a Python `dict` overwrite. -/
def lookupPos (c : α) : List (α × Nat) → Option Nat
  | [] => none
  | (a, p) :: rest => if a = c then some p else lookupPos c rest

/-- Modelled from the spec: step 3a of the scan, the stale-entry rule.
The window's left edge advances to `lastSeen[c] + 1` only when `c` is
present in the index and its recorded position is not stale, i.e.
`lastSeen[c] ≥ start`; otherwise it stays. -/
def nextStart (c : α) (st : ScanState α) : Nat :=
  match lookupPos c st.lastSeen with
  | some p => if st.start ≤ p then p + 1 else st.start
  | none => st.start

/-- Modelled from the spec: one iteration of the loop body of
`longest_unique_substring`, which is imported by `src/test_sth.py` but
missing from `src/sth.py`.  Spec steps 3a-3c: advance `start` past a
non-stale previous occurrence of `c`, record `lastSeen[c] = i`
unconditionally, and update the best window on strict improvement. -/
def stepScan (i : Nat) (c : α) (st : ScanState α) : ScanState α :=
  if st.bestLen < i - nextStart c st + 1 then
    { start := nextStart c st, bestLen := i - nextStart c st + 1,
      bestStart := nextStart c st, lastSeen := (c, i) :: st.lastSeen }
  else
    { st with start := nextStart c st, lastSeen := (c, i) :: st.lastSeen }

/-- Modelled from the spec: the scan over the remaining symbols, with `i`
the position of the first element of the remaining list. -/
def scanFrom (i : Nat) (st : ScanState α) : List α → ScanState α
  | [] => st
  | c :: rest => scanFrom (i + 1) (stepScan i c st) rest

/-- Initial scan state: `start = 0`, `bestLen = 0`, `bestStart = 0`,
empty last-seen index. -/
def initState : ScanState α := ⟨0, 0, 0, []⟩

/-- Modelled from the spec: `longest_unique_substring` (spec name
`longestUniqueSubstring`), absent from `src/sth.py` though imported by
`src/test_sth.py`; returns `S[bestStart .. bestStart + bestLen)`. -/
def longest_unique_substring (s : List α) : List α :=
  let st := scanFrom 0 initState s
  (s.drop st.bestStart).take st.bestLen

/-- String wrapper of the scanner, matching the reference use case where
the sequence is a string of characters. -/
def lusString (s : String) : String :=
  String.mk (longest_unique_substring s.data)

/-- Contiguous slice `S[a .. a + len)` of a sequence. -/
def slice (s : List α) (a len : Nat) : List α :=
  (s.drop a).take len

/-- Positional duplicate-freeness of the index range `[a, b)` of `s`:
no two distinct positions in the range hold the same symbol. -/
def uniqIn (s : List α) (a b : Nat) : Prop :=
  ∀ p q, a ≤ p → p < q → q < b → s[p]? ≠ s[q]?

/-- State of the scan after processing the first `i` symbols of `s`. -/
def stateAt (s : List α) (i : Nat) : ScanState α :=
  scanFrom 0 initState (s.take i)

/-- Checked variant of the scan loop: iteration counted by explicit fuel,
every sequence access through the fallible `s[i]?`.  Returns `none` when
fuel runs out or an access fails, mirroring how the Python loop could in
principle fail; totality of the algorithm is the statement that it never
does. -/
def scanChecked (s : List α) : Nat → Nat → ScanState α → Option (ScanState α)
  | 0, _, _ => none
  | fuel + 1, i, st =>
    if i < s.length then
      match s[i]? with
      | none => none
      | some c => scanChecked s fuel (i + 1) (stepScan i c st)
    else some st

/-- Checked variant of `longest_unique_substring`, built on `scanChecked`
with fuel `s.length + 1`. -/
def longest_unique_substring_checked (s : List α) : Option (List α) :=
  match scanChecked s (s.length + 1) 0 initState with
  | none => none
  | some st => some ((s.drop st.bestStart).take st.bestLen)

/-- Embedding of `reverse_string` from
`src/tests/fixtures/sample_functions.py`: `text[::-1]`. -/
def reverse_string (text : String) : String :=
  String.mk text.data.reverse

/-- Embedding of `calculate_factorial` from
`src/tests/fixtures/sample_functions.py`, with explicit fuel standing
for the recursion depth Python would consume: base cases `n = 0` and
`n = 1` return `1`, otherwise `n * calculate_factorial (n - 1)`. -/
def calculate_factorial : Nat → Int → Option Int
  | 0, _ => none
  | fuel + 1, n =>
    if n = 0 ∨ n = 1 then some 1
    else Option.map (fun r => n * r) (calculate_factorial fuel (n - 1))

/-- Python values relevant to `src/sth.py`: integers, strings, lists and
`None`.  The `other` constructor stands for any value of a further type. -/
inductive PyVal : Type where
  | int : Int → PyVal
  | str : String → PyVal
  | list : List PyVal → PyVal
  | none : PyVal
  | other : PyVal

/-- Outcome of a Python call: a returned value, or a raised
`TypeError` / `ValueError` carrying its message. -/
inductive PyResult : Type where
  | ok : PyVal → PyResult
  | typeError : String → PyResult
  | valueError : String → PyResult

/-- Python `isinstance(v, int)` over the embedded values. -/
def isInstInt : PyVal → Bool
  | .int _ => true
  | _ => false

/-- Embedding of `generate_random_integer` from `src/sth.py`.  The call
`random.randint` is abstracted as the oracle `randint`; its library
contract (a result within the inclusive bounds) enters the theorems as a
hypothesis.  Mirrors the source: first the `isinstance` checks raising
`TypeError`, then the `min_val > max_val` check raising `ValueError`,
then the random draw. -/
def generate_random_integer (randint : Int → Int → Int)
    (min_val max_val : PyVal) : PyResult :=
  match min_val, max_val with
  | .int a, .int b =>
    if a > b then .valueError "min_val cannot be greater than max_val"
    else .ok (.int (randint a b))
  | _, _ => .typeError "min_val and max_val must be integers"

/-- Embedding of `get_random_choice_from_list` from `src/sth.py`.  The
call `random.choice(items)` is embedded as selection of the element at
`pick % items.length`, with the random draw `pick` abstracted as an
oracle argument; `random.choice` always returns some element of a
non-empty list, which this realizes for every `pick`.  Mirrors the
source: non-lists raise `TypeError`, the empty list returns `None`
(after a log warning, a side effect outside the value model). -/
def get_random_choice_from_list (pick : Nat) (items : PyVal) : PyResult :=
  match items with
  | .list [] => .ok .none
  | .list (x :: xs) =>
    .ok ((x :: xs).get ⟨pick % (x :: xs).length, Nat.mod_lt _ (Nat.succ_pos _)⟩)
  | _ => .typeError "items must be a list"

/-- Names bound at top level in the module `src/sth.py`: the four names
imported from `typing`, the two imported modules, the two constants and
the two function definitions.  These are exactly the names that a
`from sth import X` statement can resolve. -/
def sthModuleAttrs : List String :=
  ["List", "Any", "Optional", "Union", "random", "logging",
   "DEFAULT_MIN_VALUE", "DEFAULT_MAX_VALUE",
   "generate_random_integer", "get_random_choice_from_list"]

/-- Loop invariant of the sliding-window scan, after the first `i`
symbols of `s` have been processed and the state is `st`:
the window `[start, i)` sits inside the processed prefix and is
duplicate-free and maximal to the left; the best window is a
duplicate-free slice of maximal length among all duplicate-free index
ranges of the prefix, leftmost among those of that length; and the
last-seen index records exactly the most recent occurrence of each
symbol in the prefix. -/
structure Inv (s : List α) (i : Nat) (st : ScanState α) : Prop where
  start_le : st.start ≤ i
  bestStart_le : st.bestStart ≤ st.start
  best_in : st.bestStart + st.bestLen ≤ i
  best_uniq : uniqIn s st.bestStart (st.bestStart + st.bestLen)
  win_uniq : uniqIn s st.start i
  win_max : st.start = 0 ∨ ∃ j, st.start ≤ j ∧ j < i ∧ s[j]? = s[st.start - 1]?
  best_ge : ∀ a b, b ≤ i → uniqIn s a b → b - a ≤ st.bestLen
  best_first : ∀ a, a + st.bestLen ≤ i → uniqIn s a (a + st.bestLen) →
    st.bestStart ≤ a
  seen_iff : ∀ c p, lookupPos c st.lastSeen = some p ↔
    (p < i ∧ s[p]? = some c ∧ ∀ q, p < q → q < i → s[q]? ≠ some c)

/-- When the last-seen index has no entry for `c`, the symbol `c` does
not occur in the processed prefix at all: otherwise its greatest
occurrence would satisfy the right side of `Inv.seen_iff`. -/
theorem lookup_none_no_occ {s : List α} {i : Nat} {st : ScanState α}
    (hinv : Inv s i st) {c : α} (hnone : lookupPos c st.lastSeen = none) :
    ∀ q, q < i → s[q]? ≠ some c := by
  intro q hq hocc
  have hspec := Nat.findGreatest_spec (P := fun m => m < i ∧ s[m]? = some c)
    (n := i) (m := q) (by omega) ⟨hq, hocc⟩
  set g := Nat.findGreatest (fun m => m < i ∧ s[m]? = some c) i with hg
  obtain ⟨hgi, hgc⟩ := hspec
  have hgr : ∀ q2, g < q2 → q2 < i → s[q2]? ≠ some c := by
    intro q2 hq2 hq2i hq2occ
    exact Nat.findGreatest_is_greatest hq2 (by omega) ⟨hq2i, hq2occ⟩
  have hsome := (hinv.seen_iff c g).mpr ⟨hgi, hgc, hgr⟩
  rw [hnone] at hsome
  exact Option.noConfusion hsome

/-- The left edge never moves backward in one step. -/
theorem start_le_nextStart (c : α) (st : ScanState α) :
    st.start ≤ nextStart c st := by
  unfold nextStart
  split
  · split <;> omega
  · exact le_refl _

/-- After step 3a at position `i`, the left edge is at most `i`. -/
theorem nextStart_le {s : List α} {i : Nat} {st : ScanState α}
    (hinv : Inv s i st) (c : α) : nextStart c st ≤ i := by
  have hs := hinv.start_le
  unfold nextStart
  split
  · rename_i p hl
    have hp := ((hinv.seen_iff c p).mp hl).1
    split <;> omega
  · exact hs

/-- Core of the stale-entry rule: after step 3a for the symbol `c` read
at position `i`, no occurrence of `c` remains inside `[nextStart, i)`.
A non-stale entry pushes the edge past the last occurrence; a stale
entry (`lastSeen[c] < start`) is correctly ignored because the recorded
position is the last occurrence and already lies left of the window. -/
theorem no_occ_after_nextStart {s : List α} {i : Nat} {st : ScanState α}
    (hinv : Inv s i st) {c : α} (_hc : s[i]? = some c) :
    ∀ q, nextStart c st ≤ q → q < i → s[q]? ≠ some c := by
  intro q hq hqi
  unfold nextStart at hq
  split at hq
  · rename_i p hl
    obtain ⟨hpi, hpc, hlast⟩ := (hinv.seen_iff c p).mp hl
    split at hq
    · exact hlast q (by omega) hqi
    · rename_i hns
      exact hlast q (by omega) hqi
  · rename_i hl
    exact lookup_none_no_occ hinv hl q hqi

/-- The window `[nextStart, i + 1)` obtained by step 3a is
duplicate-free. -/
theorem win_uniq_step {s : List α} {i : Nat} {st : ScanState α}
    (hinv : Inv s i st) {c : α} (hc : s[i]? = some c) :
    uniqIn s (nextStart c st) (i + 1) := by
  intro p q hp hpq hq
  have hsp : st.start ≤ p := le_trans (start_le_nextStart c st) hp
  by_cases hqi : q < i
  · exact hinv.win_uniq p q hsp hpq hqi
  · have hqeq : q = i := by omega
    subst hqeq
    rw [hc]
    exact no_occ_after_nextStart hinv hc p hp (by omega)

/-- The window after step 3a is maximal to the left: either it starts
at `0`, or the symbol just before it recurs inside the window. -/
theorem win_max_step {s : List α} {i : Nat} {st : ScanState α}
    (hinv : Inv s i st) {c : α} (hc : s[i]? = some c) :
    nextStart c st = 0 ∨
      ∃ j, nextStart c st ≤ j ∧ j < i + 1 ∧ s[j]? = s[nextStart c st - 1]? := by
  unfold nextStart
  split
  · rename_i p hl
    obtain ⟨hpi, hpc, _⟩ := (hinv.seen_iff c p).mp hl
    split
    · rename_i h
      refine Or.inr ⟨i, by omega, by omega, ?_⟩
      have he : p + 1 - 1 = p := by omega
      rw [he, hc, hpc]
    · rcases hinv.win_max with h0 | ⟨j, hj1, hj2, hj3⟩
      · exact Or.inl h0
      · exact Or.inr ⟨j, hj1, by omega, hj3⟩
  · rcases hinv.win_max with h0 | ⟨j, hj1, hj2, hj3⟩
    · exact Or.inl h0
    · exact Or.inr ⟨j, hj1, by omega, hj3⟩

/-- The last-seen index updated by step 3b records exactly the most
recent occurrences in the extended prefix. -/
theorem seen_iff_step {s : List α} {i : Nat} {st : ScanState α}
    (hinv : Inv s i st) {c : α} (hc : s[i]? = some c) :
    ∀ c2 p, lookupPos c2 ((c, i) :: st.lastSeen) = some p ↔
      (p < i + 1 ∧ s[p]? = some c2 ∧
        ∀ q, p < q → q < i + 1 → s[q]? ≠ some c2) := by
  intro c2 p
  unfold lookupPos
  by_cases hcc : c = c2
  · subst hcc
    rw [if_pos rfl]
    constructor
    · intro h
      have hpi : p = i := by
        have := Option.some.inj h
        omega
      subst hpi
      exact ⟨by omega, hc, fun q hq1 hq2 => by omega⟩
    · rintro ⟨hp1, hp2, hp3⟩
      have hpi : p = i := by
        by_contra hne
        have hplt : p < i := by omega
        exact hp3 i hplt (by omega) hc
      subst hpi
      rfl
  · rw [if_neg hcc]
    rw [hinv.seen_iff c2 p]
    constructor
    · rintro ⟨h1, h2, h3⟩
      refine ⟨by omega, h2, fun q hq1 hq2 hocc => ?_⟩
      by_cases hqi : q < i
      · exact h3 q hq1 hqi hocc
      · have : q = i := by omega
        subst this
        rw [hc] at hocc
        exact hcc (Option.some.inj hocc)
    · rintro ⟨h1, h2, h3⟩
      have hpi : p ≠ i := by
        intro he
        subst he
        rw [hc] at h2
        exact hcc (Option.some.inj h2)
      exact ⟨by omega, h2, fun q hq1 hq2 => h3 q hq1 (by omega)⟩

/-- The invariant holds before any symbol is processed. -/
theorem inv_init (s : List α) : Inv s 0 initState := by
  refine ⟨le_refl 0, le_refl 0, ?_, ?_, ?_, Or.inl rfl, ?_, ?_, ?_⟩
  · show (0 : Nat) + 0 ≤ 0
    omega
  · show uniqIn s 0 (0 + 0)
    intro p q hp hpq hq; omega
  · show uniqIn s 0 0
    intro p q hp hpq hq; omega
  · show ∀ a b, b ≤ 0 → uniqIn s a b → b - a ≤ 0
    intro a b hb hu; omega
  · show ∀ a, a + 0 ≤ 0 → uniqIn s a (a + 0) → 0 ≤ a
    intro a ha hu; omega
  · intro c p
    constructor
    · intro h
      simp [lookupPos] at h
    · rintro ⟨h1, _, _⟩
      omega

/-- One loop iteration preserves the invariant. -/
theorem inv_step {s : List α} {i : Nat} {st : ScanState α} {c : α}
    (hc : s[i]? = some c) (hinv : Inv s i st) :
    Inv s (i + 1) (stepScan i c st) := by
  have hns_i : nextStart c st ≤ i := nextStart_le hinv c
  have hst_ns : st.start ≤ nextStart c st := start_le_nextStart c st
  have hwin : uniqIn s (nextStart c st) (i + 1) := win_uniq_step hinv hc
  have hmax : nextStart c st = 0 ∨
      ∃ j, nextStart c st ≤ j ∧ j < i + 1 ∧ s[j]? = s[nextStart c st - 1]? :=
    win_max_step hinv hc
  have hseen := seen_iff_step hinv hc
  have hub : ∀ a, uniqIn s a (i + 1) → a < i + 1 → nextStart c st ≤ a := by
    intro a hu ha
    by_contra hlt
    push_neg at hlt
    rcases hmax with h0 | ⟨j, hj1, hj2, hj3⟩
    · omega
    · exact hu (nextStart c st - 1) j (by omega) (by omega) hj2 hj3.symm
  unfold stepScan
  split
  · rename_i hup
    refine ⟨?_, ?_, ?_, ?_, ?_, ?_, ?_, ?_, ?_⟩
    · show nextStart c st ≤ i + 1
      omega
    · show nextStart c st ≤ nextStart c st
      exact le_refl _
    · show nextStart c st + (i - nextStart c st + 1) ≤ i + 1
      omega
    · show uniqIn s (nextStart c st) (nextStart c st + (i - nextStart c st + 1))
      have he : nextStart c st + (i - nextStart c st + 1) = i + 1 := by omega
      rw [he]
      exact hwin
    · exact hwin
    · exact hmax
    · show ∀ a b, b ≤ i + 1 → uniqIn s a b → b - a ≤ i - nextStart c st + 1
      intro a b hb hu
      by_cases hbi : b ≤ i
      · have := hinv.best_ge a b hbi hu
        omega
      · have hbe : b = i + 1 := by omega
        subst hbe
        by_cases hai : a < i + 1
        · have := hub a hu hai
          omega
        · omega
    · show ∀ a, a + (i - nextStart c st + 1) ≤ i + 1 →
        uniqIn s a (a + (i - nextStart c st + 1)) → nextStart c st ≤ a
      intro a ha hu
      by_cases hai : a + (i - nextStart c st + 1) ≤ i
      · have := hinv.best_ge a (a + (i - nextStart c st + 1)) hai hu
        omega
      · have hae : a + (i - nextStart c st + 1) = i + 1 := by omega
        rw [hae] at hu
        exact hub a hu (by omega)
    · exact hseen
  · rename_i hnup
    refine ⟨?_, ?_, ?_, ?_, ?_, ?_, ?_, ?_, ?_⟩
    · show nextStart c st ≤ i + 1
      omega
    · show st.bestStart ≤ nextStart c st
      have := hinv.bestStart_le
      omega
    · show st.bestStart + st.bestLen ≤ i + 1
      have := hinv.best_in
      omega
    · exact hinv.best_uniq
    · exact hwin
    · exact hmax
    · show ∀ a b, b ≤ i + 1 → uniqIn s a b → b - a ≤ st.bestLen
      intro a b hb hu
      by_cases hbi : b ≤ i
      · exact hinv.best_ge a b hbi hu
      · have hbe : b = i + 1 := by omega
        subst hbe
        by_cases hai : a < i + 1
        · have := hub a hu hai
          omega
        · omega
    · show ∀ a, a + st.bestLen ≤ i + 1 → uniqIn s a (a + st.bestLen) →
        st.bestStart ≤ a
      intro a ha hu
      by_cases hai : a + st.bestLen ≤ i
      · exact hinv.best_first a hai hu
      · have hae : a + st.bestLen = i + 1 := by omega
        by_cases hai2 : a < i + 1
        · rw [hae] at hu
          have h1 := hub a hu hai2
          have h2 := hinv.bestStart_le
          omega
        · have h2 := hinv.best_in
          omega
    · exact hseen

/-- Scanning a concatenation is scanning the two parts in order. -/
theorem scanFrom_append (l1 l2 : List α) : ∀ (i : Nat) (st : ScanState α),
    scanFrom i st (l1 ++ l2) = scanFrom (i + l1.length) (scanFrom i st l1) l2 := by
  induction l1 with
  | nil => intro i st; simp [scanFrom]
  | cons c rest ih =>
    intro i st
    show scanFrom (i + 1) (stepScan i c st) (rest ++ l2) = _
    rw [ih (i + 1) (stepScan i c st)]
    have he : i + 1 + rest.length = i + (c :: rest).length := by
      simp
      omega
    rw [he]
    rfl

/-- Processing one more symbol is one more `stepScan`. -/
theorem stateAt_succ (s : List α) (i : Nat) (c : α) (hc : s[i]? = some c) :
    stateAt s (i + 1) = stepScan i c (stateAt s i) := by
  have hi : i < s.length := by
    by_contra hh
    rw [List.getElem?_eq_none (by omega)] at hc
    exact Option.noConfusion hc
  unfold stateAt
  rw [List.take_succ, hc, scanFrom_append]
  have hlen : (s.take i).length = i := by
    rw [List.length_take]
    omega
  rw [hlen]
  have hz : 0 + i = i := by omega
  rw [hz]
  rfl

/-- The invariant holds after every processed prefix of the input. -/
theorem inv_stateAt (s : List α) : ∀ i, i ≤ s.length → Inv s i (stateAt s i) := by
  intro i
  induction i with
  | zero => intro _; exact inv_init s
  | succ i ih =>
    intro h
    have hi : i < s.length := by omega
    have hc : s[i]? = some s[i] := List.getElem?_eq_getElem hi
    rw [stateAt_succ s i s[i] hc]
    exact inv_step hc (ih (by omega))

/-- The full scan is the state after the whole input. -/
theorem scan_eq_stateAt (s : List α) :
    scanFrom 0 initState s = stateAt s s.length := by
  unfold stateAt
  rw [List.take_length]

/-- A slice inside the sequence is `Nodup` exactly when its index range
is positionally duplicate-free. -/
theorem slice_nodup_iff (s : List α) (a len : Nat) (h : a + len ≤ s.length) :
    (slice s a len).Nodup ↔ uniqIn s a (a + len) := by
  rw [List.nodup_iff_getElem?_ne_getElem?]
  unfold slice uniqIn
  constructor
  · intro hnd p q hp hpq hq
    have h1 : p - a < q - a := by omega
    have h2 : q - a < ((s.drop a).take len).length := by
      rw [List.length_take, List.length_drop]
      omega
    have hne := hnd (p - a) (q - a) h1 h2
    rw [List.getElem?_take_of_lt (by omega), List.getElem?_take_of_lt (by omega),
      List.getElem?_drop, List.getElem?_drop] at hne
    have e1 : a + (p - a) = p := by omega
    have e2 : a + (q - a) = q := by omega
    rw [e1, e2] at hne
    exact hne
  · intro hu k j hkj hj
    rw [List.length_take, List.length_drop] at hj
    rw [List.getElem?_take_of_lt (by omega), List.getElem?_take_of_lt (by omega),
      List.getElem?_drop, List.getElem?_drop]
    exact hu (a + k) (a + j) (by omega) (by omega) (by omega)

/-- The returned subsequence has length `bestLen` of the final state. -/
theorem lus_length (s : List α) :
    (longest_unique_substring s).length = (scanFrom 0 initState s).bestLen := by
  have hinv : Inv s s.length (scanFrom 0 initState s) := by
    rw [scan_eq_stateAt]
    exact inv_stateAt s s.length (le_refl _)
  have hbi := hinv.best_in
  unfold longest_unique_substring
  rw [List.length_take, List.length_drop]
  omega

/-- The returned subsequence is the best slice of the final state. -/
theorem lus_eq_slice (s : List α) :
    longest_unique_substring s =
      slice s (scanFrom 0 initState s).bestStart (scanFrom 0 initState s).bestLen :=
  rfl

/-- The checked loop with enough fuel completes and agrees with the
structural scan of the remaining suffix. -/
theorem scanChecked_complete (s : List α) : ∀ (fuel i : Nat) (st : ScanState α),
    i + fuel = s.length + 1 → i ≤ s.length →
    scanChecked s fuel i st = some (scanFrom i st (s.drop i)) := by
  intro fuel
  induction fuel with
  | zero => intro i st hf hi; omega
  | succ fuel ih =>
    intro i st hf hi
    unfold scanChecked
    by_cases hlt : i < s.length
    · rw [if_pos hlt]
      have hc : s[i]? = some s[i] := List.getElem?_eq_getElem hlt
      rw [hc]
      have hdrop : s.drop i = s[i] :: s.drop (i + 1) := List.drop_eq_getElem_cons hlt
      rw [hdrop]
      show scanChecked s fuel (i + 1) (stepScan i s[i] st) =
        some (scanFrom (i + 1) (stepScan i s[i] st) (s.drop (i + 1)))
      exact ih (i + 1) (stepScan i s[i] st) (by omega) (by omega)
    · rw [if_neg hlt]
      have hie : i = s.length := by omega
      rw [hie, List.drop_length]
      rfl

/-- Unfolding lemma: `calculate_factorial` computes the factorial of a
natural number given fuel exceeding it. -/
theorem calcFact_nat : ∀ (m fuel : Nat), m < fuel →
    calculate_factorial fuel (m : Int) = some ((Nat.factorial m : Nat) : Int) := by
  intro m
  induction m with
  | zero =>
    intro fuel hf
    match fuel, hf with
    | f + 1, _ => simp [calculate_factorial, Nat.factorial]
  | succ m ih =>
    intro fuel hf
    match fuel, hf with
    | f + 1, hf =>
      by_cases hm : m = 0
      · subst hm; simp [calculate_factorial, Nat.factorial]
      · have hne : ¬(((m + 1 : Nat) : Int) = 0 ∨ ((m + 1 : Nat) : Int) = 1) := by
          push_cast; omega
        have hsub : ((m + 1 : Nat) : Int) - 1 = (m : Int) := by push_cast; ring
        rw [calculate_factorial, if_neg hne, hsub, ih f (by omega)]
        simp [Nat.factorial_succ]

/-- For a negative argument the recursion of `calculate_factorial` never
reaches a base case: it exhausts any amount of fuel. -/
theorem calcFact_neg : ∀ (fuel : Nat) (n : Int), n < 0 →
    calculate_factorial fuel n = none := by
  intro fuel
  induction fuel with
  | zero => intro n _; rfl
  | succ f ih =>
    intro n hn
    have h0 : ¬(n = 0 ∨ n = 1) := by omega
    rw [calculate_factorial, if_neg h0, ih (n - 1) (by omega)]
    rfl

/-- C1: for every finite sequence, `longest_unique_substring` returns a
contiguous slice of the input that contains no repeated element, and its
length is maximal among all contiguous duplicate-free slices. -/
theorem claim_C1 (s : List α) :
    (∃ a, a + (longest_unique_substring s).length ≤ s.length ∧
      longest_unique_substring s = slice s a (longest_unique_substring s).length) ∧
    (longest_unique_substring s).Nodup ∧
    (∀ a len, a + len ≤ s.length → (slice s a len).Nodup →
      len ≤ (longest_unique_substring s).length) := by
  have hinv : Inv s s.length (scanFrom 0 initState s) := by
    rw [scan_eq_stateAt]
    exact inv_stateAt s s.length (le_refl _)
  have hlen := lus_length s
  have heq := lus_eq_slice s
  refine ⟨⟨(scanFrom 0 initState s).bestStart, ?_, ?_⟩, ?_, ?_⟩
  · rw [hlen]
    exact hinv.best_in
  · rw [hlen]
    exact heq
  · rw [heq]
    exact (slice_nodup_iff s _ _ hinv.best_in).2 hinv.best_uniq
  · intro a len hal hnd
    rw [hlen]
    have hu := (slice_nodup_iff s a len hal).1 hnd
    have := hinv.best_ge a (a + len) hal hu
    omega

/-- Witness for C1: on `[0, 1, 1, 2, 3, 1]` the duplicate-free slice of
length 3 at index 3 forces the result length to be at least 3. -/
theorem claim_C1_witness :
    3 ≤ (longest_unique_substring [0, 1, 1, 2, 3, 1]).length :=
  (claim_C1 [0, 1, 1, 2, 3, 1]).2.2 3 3 (by decide) (by decide)

/-- C3: the returned subsequence is the slice starting at the final
state's `bestStart`, and every duplicate-free slice of the same
(maximal) length starts at an index no smaller than `bestStart`: the
leftmost maximal run wins. -/
theorem claim_C3 (s : List α) :
    longest_unique_substring s =
      slice s (scanFrom 0 initState s).bestStart
        (longest_unique_substring s).length ∧
    (∀ a, a + (longest_unique_substring s).length ≤ s.length →
      (slice s a (longest_unique_substring s).length).Nodup →
      (scanFrom 0 initState s).bestStart ≤ a) := by
  have hinv : Inv s s.length (scanFrom 0 initState s) := by
    rw [scan_eq_stateAt]
    exact inv_stateAt s s.length (le_refl _)
  have hlen := lus_length s
  constructor
  · rw [hlen]
    exact lus_eq_slice s
  · intro a ha hnd
    rw [hlen] at ha hnd
    have hu := (slice_nodup_iff s a _ ha).1 hnd
    exact hinv.best_first a ha hu

/-- Witness for C3: on `[0, 1, 1, 2, 3, 1]` both slices of maximal
length 3 start at index 2 or 3, and the scan keeps the earlier one. -/
theorem claim_C3_witness :
    (scanFrom 0 initState [0, 1, 1, 2, 3, 1]).bestStart ≤ 3 :=
  (claim_C3 [0, 1, 1, 2, 3, 1]).2 3 (by decide) (by decide)

/-- C5: totality.  The checked embedding of the loop, in which every
sequence access may fail and the iteration is bounded by explicit fuel
`length + 1`, always completes with a value, and that value is the one
computed by the total function: the scan terminates within its linear
bound and no access ever fails. -/
theorem claim_C5 (s : List α) :
    longest_unique_substring_checked s = some (longest_unique_substring s) := by
  unfold longest_unique_substring_checked
  rw [scanChecked_complete s (s.length + 1) 0 initState (by omega) (by omega)]
  rfl

/-- C6: the window invariant.  After each number `i` of processed
symbols, the current window `[start, i)` of positions — maintained by
the stale-entry rule of `nextStart` — contains no symbol twice, both
positionally (`uniqIn`) and as a `Nodup` slice. -/
theorem claim_C6 (s : List α) (i : Nat) (h : i ≤ s.length) :
    uniqIn s (stateAt s i).start i ∧
    (slice s (stateAt s i).start (i - (stateAt s i).start)).Nodup := by
  have hinv := inv_stateAt s i h
  have hs := hinv.start_le
  refine ⟨hinv.win_uniq, ?_⟩
  have hb : (stateAt s i).start + (i - (stateAt s i).start) ≤ s.length := by
    omega
  refine (slice_nodup_iff s _ _ hb).2 ?_
  have he : (stateAt s i).start + (i - (stateAt s i).start) = i := by omega
  rw [he]
  exact hinv.win_uniq

/-- Witness for C6 after four symbols of `[0, 1, 1, 2, 3, 1]`. -/
theorem claim_C6_witness :
    uniqIn [0, 1, 1, 2, 3, 1] (stateAt [0, 1, 1, 2, 3, 1] 4).start 4 ∧
    (slice [0, 1, 1, 2, 3, 1] (stateAt [0, 1, 1, 2, 3, 1] 4).start
      (4 - (stateAt [0, 1, 1, 2, 3, 1] 4).start)).Nodup :=
  claim_C6 [0, 1, 1, 2, 3, 1] 4 (by decide)

/-- C2: the module `sth` (src/sth.py) binds none of the three names that
`src/test_sth.py` imports from it; in particular no function
`longest_unique_substring` is defined in or importable from `sth`, so
the import on line 2 of the test raises `ImportError`. -/
theorem claim_C2 :
    "longest_unique_substring" ∉ sthModuleAttrs ∧
    "reverse_string" ∉ sthModuleAttrs ∧
    "test_function" ∉ sthModuleAttrs := by
  refine ⟨?_, ?_, ?_⟩ <;> simp [sthModuleAttrs]

/-- C4: the scanner returns "" on "", "a" on "a", "abcde" on "abcde",
"abc" on "abcabcbb", "b" on "bbbbb", and "wke" on "pwwkew". -/
theorem claim_C4 :
    lusString "" = "" ∧ lusString "a" = "a" ∧ lusString "abcde" = "abcde" ∧
    lusString "abcabcbb" = "abc" ∧ lusString "bbbbb" = "b" ∧
    lusString "pwwkew" = "wke" := by
  refine ⟨?_, ?_, ?_, ?_, ?_, ?_⟩ <;> decide

/-- C7: reversing a string twice is the identity, and the fixture's
concrete cases hold: `reverse_string "" = ""` and
`reverse_string "a1b2c3" = "3c2b1a"`. -/
theorem claim_C7 :
    (∀ s : String, reverse_string (reverse_string s) = s) ∧
    reverse_string "" = "" ∧ reverse_string "a1b2c3" = "3c2b1a" := by
  refine ⟨fun s => ?_, rfl, rfl⟩
  cases s with
  | mk data => simp [reverse_string]

/-- C8: `generate_random_integer` raises `TypeError` exactly when an
argument is not an integer; on integers it raises `ValueError` exactly
when `min_val > max_val`; otherwise it returns an integer within the
inclusive bounds, given the `random.randint` library contract. -/
theorem claim_C8 (randint : Int → Int → Int)
    (hr : ∀ a b : Int, a ≤ b → a ≤ randint a b ∧ randint a b ≤ b)
    (min_val max_val : PyVal) :
    ((∃ m, generate_random_integer randint min_val max_val = .typeError m) ↔
      ¬(isInstInt min_val = true ∧ isInstInt max_val = true)) ∧
    (∀ a b : Int, min_val = .int a → max_val = .int b →
      (((∃ m, generate_random_integer randint min_val max_val = .valueError m) ↔
          a > b) ∧
       (a ≤ b → ∃ r : Int,
          generate_random_integer randint min_val max_val = .ok (.int r) ∧
          a ≤ r ∧ r ≤ b))) := by
  constructor
  · cases min_val <;> cases max_val <;>
      simp [generate_random_integer, isInstInt]
    intro m
    split <;> simp
  · intro a b ha hb
    subst ha; subst hb
    constructor
    · by_cases hab : a > b <;> simp [generate_random_integer, hab]
    · intro hle
      have hab : ¬a > b := by omega
      exact ⟨randint a b, by simp [generate_random_integer, hab],
        (hr a b hle).1, (hr a b hle).2⟩

/-- C9: `get_random_choice_from_list` raises `TypeError` exactly when
its argument is not a list, returns `None` on the empty list, and
returns an element of the list on every non-empty list. -/
theorem claim_C9 (pick : Nat) (items : PyVal) :
    ((∃ m, get_random_choice_from_list pick items = .typeError m) ↔
      ∀ l, items ≠ .list l) ∧
    (get_random_choice_from_list pick (.list []) = .ok .none) ∧
    (∀ l, items = .list l → l ≠ [] →
      ∃ v, get_random_choice_from_list pick items = .ok v ∧ v ∈ l) := by
  refine ⟨?_, rfl, ?_⟩
  · cases items with
    | list l => cases l <;> simp [get_random_choice_from_list]
    | _ => simp [get_random_choice_from_list]
  · intro l hi hl
    subst hi
    match l, hl with
    | x :: xs, _ =>
      exact ⟨_, rfl, List.get_mem _ _ _⟩

/-- C10: with fuel exceeding `n`, `calculate_factorial` terminates on
every integer `n ≥ 0` and returns `n!`; for negative `n` the recursion
never reaches a base case and exhausts any amount of fuel. -/
theorem claim_C10 :
    (∀ (n : Int) (fuel : Nat), 0 ≤ n → n.toNat < fuel →
      calculate_factorial fuel n = some ((Nat.factorial n.toNat : Nat) : Int)) ∧
    (∀ (n : Int) (fuel : Nat), n < 0 → calculate_factorial fuel n = none) := by
  constructor
  · intro n fuel hn hf
    have hrepr : n = ((n.toNat : Nat) : Int) := (Int.toNat_of_nonneg hn).symm
    conv_lhs => rw [hrepr]
    exact calcFact_nat n.toNat fuel hf
  · intro n fuel hn
    exact calcFact_neg fuel n hn

/-- Witness for C8 at `randint a b = a`, `min_val = 0`, `max_val = 5`. -/
theorem claim_C8_witness :
    ∃ r : Int, generate_random_integer (fun a _ => a) (.int 0) (.int 5) =
      .ok (.int r) ∧ 0 ≤ r ∧ r ≤ 5 := by
  have h := claim_C8 (fun a _ => a) (fun a _ hab => ⟨le_refl a, hab⟩) (.int 0) (.int 5)
  exact (h.2 0 5 rfl rfl).2 (by decide)

/-- Witness for C9 at `pick = 7` on the two-element list `[1, 2]`. -/
theorem claim_C9_witness :
    ∃ v, get_random_choice_from_list 7 (.list [.int 1, .int 2]) = .ok v ∧
      v ∈ [PyVal.int 1, PyVal.int 2] :=
  (claim_C9 7 (.list [.int 1, .int 2])).2.2 [PyVal.int 1, PyVal.int 2] rfl (by simp)

/-- Witness for C10 at `n = 5` with fuel `6` and at `n = -3` with fuel `9`. -/
theorem claim_C10_witness :
    calculate_factorial 6 (5 : Int) = some 120 ∧
    calculate_factorial 9 (-3 : Int) = none := by
  constructor
  · have h := claim_C10.1 5 6 (by decide) (by decide)
    simpa using h
  · exact claim_C10.2 (-3) 9 (by decide)

end DocAi
